import Mathlib

/-!
Shallow embedding of the gcs-helper prefix-to-manifest mapping engine
(`map.go` / `config.go`): prefix fan-out (`getPrefixes`), paginated listing
with bounded retry (`expandPrefix`), manifest assembly (`getPrefixMapping`),
extra-resource injection (`appendExtraResources`), URL signing
(`signedURLs` / `signedPath` / `SignConfig.Options`) and the HTTP map
handler (`getMapHandler`).

External collaborators (the GCS object lister, `regexp.MatchString`,
`storage.SignedURL`, `url.Parse`+`RequestURI`, and the wall clock) are
modelled as explicit function parameters.  Machine-level details that the
engine never observes (JSON encoding, logging, the HTTP transport) are out
of scope, matching the spec's stated boundary.
-/

namespace GcsHelper

/-! ### Go standard-library string helpers

Each helper models the exact Go function the source calls, on `List Char`
where recursion is convenient, wrapped at `String` level. -/

/-- Does `pat` occur as a contiguous substring of `s`?  (Core of Go
`strings.Contains`.)  The empty pattern occurs in every string. -/
def hasSubstrL : List Char → List Char → Bool
  | _, [] => true
  | [], _ :: _ => false
  | c :: rest, p :: ps =>
    List.isPrefixOf (p :: ps) (c :: rest) || hasSubstrL rest (p :: ps)

/-- Go `strings.Contains s sub`. -/
def stringsContains (s sub : String) : Bool :=
  hasSubstrL s.data sub.data

/-- Replace the first occurrence of `pat` in `s` by `rep`; if `pat` does not
occur, return `s` unchanged.  An empty `pat` is replaced at the front.
(Core of Go `strings.Replace(s, pat, rep, 1)`.) -/
def replaceFirstL : List Char → List Char → List Char → List Char
  | s, [], rep => rep ++ s
  | [], _ :: _, _ => []
  | c :: rest, p :: ps, rep =>
    if List.isPrefixOf (p :: ps) (c :: rest) then
      rep ++ (c :: rest).drop (p :: ps).length
    else
      c :: replaceFirstL rest (p :: ps) rep

/-- Go `strings.Replace(s, old, new, 1)`. -/
def stringsReplaceOnce (s old new : String) : String :=
  ⟨replaceFirstL s.data old.data new.data⟩

/-- Split a character list at the first occurrence of `sep`:
`some (before, after)`, or `none` when `sep` does not occur. -/
def breakAtChar (sep : Char) : List Char → Option (List Char × List Char)
  | [] => none
  | c :: rest =>
    if c = sep then some ([], rest)
    else
      match breakAtChar sep rest with
      | none => none
      | some (a, b) => some (c :: a, b)

/-- Go `strings.SplitN(s, sep, n)` for `n > 0` and a one-character
separator: at most `n` parts, the last part keeps the remainder. -/
def splitNL (sep : Char) : Nat → List Char → List (List Char)
  | 0, _ => []
  | 1, s => [s]
  | n + 2, s =>
    match breakAtChar sep s with
    | none => [s]
    | some (a, b) => a :: splitNL sep (n + 1) b

/-- Go `strings.SplitN(s, sep, n)` at `String` level (one-character
separator, as used by the source: `strings.SplitN(path, "/", 3)`). -/
def stringsSplitN (s : String) (sep : Char) (n : Nat) : List String :=
  (splitNL sep n s.data).map String.mk

/-- Full split on every occurrence of `sep` (Go `strings.Split` with a
one-character separator; also the segment decomposition used by
`path.Clean`).  The empty list of characters yields one empty segment,
matching Go. -/
def splitAllChar (sep : Char) : List Char → List (List Char)
  | [] => [[]]
  | c :: rest =>
    if c = sep then [] :: splitAllChar sep rest
    else
      match splitAllChar sep rest with
      | [] => [[c]]
      | h :: t => (c :: h) :: t

/-- Go `strings.Split(s, sep)` for a one-character separator (as used by the
source: `strings.Split(resources, ",")`). -/
def stringsSplit (s : String) (sep : Char) : List String :=
  (splitAllChar sep s.data).map String.mk

/-- The characters after the last '/' of `l` (the whole list when no '/'
occurs).  This is the `file` component of Go `path.Split`. -/
def afterLastSlashL (l : List Char) : List Char :=
  l.foldl (fun acc c => if c = '/' then [] else acc ++ [c]) []

/-- The second component (`file`) of Go `path.Split(s)`: everything after
the final slash. -/
def pathSplitFile (s : String) : String :=
  ⟨afterLastSlashL s.data⟩

/-- Remove all trailing '/' characters. -/
def dropTrailingSlashesL (l : List Char) : List Char :=
  (l.reverse.dropWhile (fun c => c = '/')).reverse

/-- Go `filepath.Base` (Unix rules, as on the deployment platform): the
last element of the path after stripping trailing slashes; `"."` for the
empty path, `"/"` for a path of only slashes. -/
def filepathBase (s : String) : String :=
  if s = "" then "."
  else
    match dropTrailingSlashesL s.data with
    | [] => "/"
    | l => ⟨afterLastSlashL l⟩

/-- Segment processing of Go `path.Clean`: drop empty and "." segments; a
".." pops the previous segment, is dropped at the root of a rooted path,
and is kept at the front of a relative path.  `stack` holds the output
segments in reverse. -/
def cleanSegs (rooted : Bool) : List String → List String → List String
  | stack, [] => stack.reverse
  | stack, seg :: rest =>
    if seg = "" ∨ seg = "." then cleanSegs rooted stack rest
    else if seg = ".." then
      match stack with
      | [] =>
        if rooted then cleanSegs rooted [] rest
        else cleanSegs rooted [".."] rest
      | top :: stack2 =>
        if top = ".." then cleanSegs rooted (".." :: top :: stack2) rest
        else cleanSegs rooted stack2 rest
    else cleanSegs rooted (seg :: stack) rest

/-- The cleaned segments of a path, joined back with "/". -/
def pathBody (rooted : Bool) (segs : List String) : String :=
  String.intercalate "/" (cleanSegs rooted [] segs)

/-- Final assembly of `path.Clean`: re-add the root slash; an empty result
is `"/"` for a rooted path and `"."` for a relative one. -/
def pathRender (rooted : Bool) (body : String) : String :=
  if rooted then (if body = "" then "/" else "/" ++ body)
  else (if body = "" then "." else body)

/-- Go `path.Clean`: shortest lexically equivalent path (collapse repeated
slashes, drop "." segments, resolve ".." segments, no trailing slash);
`"."` for the empty result of a relative path, `"/"` for a rooted one. -/
def pathClean (s : String) : String :=
  if s = "" then "."
  else
    pathRender (s.data.head? == some '/')
      (pathBody (s.data.head? == some '/') ((splitAllChar '/' s.data).map String.mk))

/-- Go `path.Join(a, b)` for two elements: empty elements before the first
non-empty one are skipped, the rest are joined with "/" and cleaned; all
elements empty gives `""`. -/
def pathJoin2 (a b : String) : String :=
  if a = "" then (if b = "" then "" else pathClean b)
  else pathClean (a ++ "/" ++ b)

/-- Go `strings.TrimLeft(s, "/")`: remove all leading '/' characters. -/
def trimLeftSlashes (s : String) : String :=
  ⟨s.data.dropWhile (fun c => c = '/')⟩

/-! ### Data model (`map.go`, `config.go`) -/

/-- `type clip struct { Type string; Path string }`.  (Go's field name
`Type` is a Lean keyword and is written `«Type»`.) -/
structure clip where
  «Type» : String
  Path : String
  deriving DecidableEq, Repr

/-- `type sequence struct { Clips []clip }`. -/
structure sequence where
  Clips : List clip
  deriving DecidableEq, Repr

/-- `type mapping struct { Sequences []sequence }`. -/
structure mapping where
  Sequences : List sequence
  deriving DecidableEq, Repr

/-- `SignConfig` from `config.go`.  `PrivateKey` is a `[]byte` decoded from
base64; `none` models a nil slice (variable unset), mirroring the
`c.PrivateKey == nil` test in `Options`.  `Expiration` is a duration in
abstract clock units. -/
structure SignConfig where
  Expiration : Nat := 0
  AccessID : String := ""
  PrivateKey : Option String := none
  deriving DecidableEq, Repr

/-- The fields of `Config` that the mapping engine reads.  Fields consumed
only by process startup (listen address, log level, GCS client transport
options) are outside the modelled engine and omitted. -/
structure Config where
  BucketName : String := ""
  MapPrefix : String := ""
  ExtraResourcesToken : String := ""
  MapRegexFilter : String := ""
  MapRegexHDFilter : String := ""
  MapExtraPrefixes : List String := []
  SignConfig : SignConfig := {}
  deriving DecidableEq, Repr

/-- One object returned by the GCS lister (`storage.ObjectAttrs`, the two
fields the engine reads: `Bucket` and `Name`). -/
structure GObject where
  bucket : String
  name : String
  deriving DecidableEq, Repr

/-- How one listing attempt ends: the `iterator.Done` sentinel ("no more
results") or a transport/API error carrying a message. -/
inductive ListOutcome where
  | done : ListOutcome
  | fail : String → ListOutcome
  deriving DecidableEq, Repr

/-- One paginated listing attempt as the engine observes it: the objects
yielded by successive `iter.Next()` calls, then the terminating outcome. -/
structure ListAttempt where
  objs : List GObject
  outcome : ListOutcome
  deriving DecidableEq, Repr

/-- The abstract Object Lister: `bucketHandle.Objects` with `Delimiter "/"`
at a given query prefix; the `Nat` argument is the attempt index within one
`expandPrefix` call (each retry builds a fresh iterator, which may behave
differently on a transient failure). -/
abbrev Lister := String → Nat → ListAttempt

/-- `regexp.MatchString(pattern, s)`: the matched flag together with the
compile error, if any.  The source discards the error component
(`matched, _ := regexp.MatchString(...)`); Go returns `(false, err)` for a
malformed pattern. -/
abbrev Matcher := String → String → Bool × Option String

/-- `storage.SignedURLOptions` (the fields the engine sets). `Expires` is
an absolute time in abstract clock units. -/
structure SignedURLOptions where
  Method : String
  GoogleAccessID : String
  PrivateKey : String
  Expires : Nat
  deriving DecidableEq, Repr

/-- The abstract URL Signer boundary: `sign` models `storage.SignedURL
(bucket, key, opts)` and `requestURI` models `url.Parse` followed by
`(*url.URL).RequestURI()` (extracting path + query); either can fail with
an error message. -/
structure Signer where
  sign : String → String → SignedURLOptions → Except String String
  requestURI : String → Except String String

/-! ### The mapping engine (`map.go`) -/

/-- `const maxTry = 5`. -/
def maxTry : Nat := 5

/-- The first lines of `expandPrefix`: pick the filter pattern and
normalize the prefix.  If the prefix contains `"__HD"`, use
`MapRegexHDFilter` and remove the first occurrence of the marker;
otherwise use `MapRegexFilter` and keep the prefix unchanged.  Returns
`(filterRegex, pfx)`.  (`pfx` is the Go variable `prefix`, a Lean
keyword.) -/
def selectFilter (pfx : String) (config : Config) : String × String :=
  if stringsContains pfx "__HD" then
    (config.MapRegexHDFilter, stringsReplaceOnce pfx "__HD" "")
  else
    (config.MapRegexFilter, pfx)

/-- The inner `iter.Next()` loop of `expandPrefix`: for each listed object,
keep it when `regexp.MatchString(filterRegex, filepath.Base(obj.Name))`
reports a match (its error is discarded, as in the source), building one
`sequence` with one `clip` whose path is `"/" + obj.Bucket + "/" +
obj.Name`, in listing order. -/
def buildSequences (filterRegex : String) (rmatch : Matcher) (objs : List GObject) : List sequence :=
  objs.foldl
    (fun acc obj =>
      let filename := filepathBase obj.name
      let matched := (rmatch filterRegex filename).1
      if matched then
        acc ++ [{ Clips := [{ «Type» := "source", Path := "/" ++ obj.bucket ++ "/" ++ obj.name }] }]
      else acc)
    []

/-- The retry loop of `expandPrefix` (`for i := 0; i < maxTry; i++`):
`fuel` is the number of attempts left, `i` the next attempt index, and
`lastErr` the error of the previous failed attempt (`var err error`,
returned as `nil, err` when the attempts are exhausted). -/
def expandLoop (att : Nat → ListAttempt) (build : List GObject → List sequence) :
    Nat → Nat → String → Except String (List sequence)
  | 0, _, lastErr => .error lastErr
  | fuel + 1, i, _ =>
    let a := att i
    let seqs := build a.objs
    match a.outcome with
    | .done => .ok seqs
    | .fail e => expandLoop att build fuel (i + 1) e

/-- `expandPrefix(prefix, config, bucketHandle)`: select the filter and
normalized prefix, then retry the whole listing up to `maxTry` times; an
attempt that reaches the `iterator.Done` sentinel returns exactly that
attempt's sequences, and exhausted attempts return the last error with no
sequences.  (The unused `lastErr` starts as `""`; with `maxTry = 5 > 0` it
is never returned.) -/
def expandPrefix (pfx : String) (config : Config) (lister : Lister) (rmatch : Matcher) :
    Except String (List sequence) :=
  let fr := selectFilter pfx config
  expandLoop (lister fr.2) (buildSequences fr.1 rmatch) maxTry 0 ""

/-- `getPrefixes(originalPrefix, config)`: the original prefix first, then
`path.Join(p, lastPart)` for each configured extra prefix `p` in order,
where `lastPart` is the file component of `path.Split(originalPrefix)`. -/
def getPrefixes (originalPrefix : String) (config : Config) : List String :=
  let lastPart := pathSplitFile originalPrefix
  config.MapExtraPrefixes.foldl
    (fun prefixes p => prefixes ++ [pathJoin2 p lastPart])
    [originalPrefix]

/-- The loop of `getPrefixMapping`: expand each physical prefix in order,
appending its sequences; on the first failure return the partial mapping
together with the error (`return m, err` in the source — the handler then
discards the partial mapping). -/
def gpmLoop (config : Config) (lister : Lister) (rmatch : Matcher) :
    List String → List sequence → mapping × Option String
  | [], acc => ({ Sequences := acc }, none)
  | p :: rest, acc =>
    match expandPrefix p config lister rmatch with
    | .error e => ({ Sequences := acc }, some e)
    | .ok seqs => gpmLoop config lister rmatch rest (acc ++ seqs)

/-- `getPrefixMapping(prefix, config, bucketHandle)`. -/
def getPrefixMapping (pfx : String) (config : Config) (lister : Lister) (rmatch : Matcher) :
    mapping × Option String :=
  gpmLoop config lister rmatch (getPrefixes pfx config) []

/-- An HTTP request as the map handler observes it: the method, the URL
path (after the router stripped the configured map prefix), and
`r.URL.Query().Get` (`""` for an absent parameter). -/
structure Request where
  method : String
  urlPath : String
  queryGet : String → String

/-- `appendExtraResources(r, config, m)`: split the configured query
parameter's value on commas and append, for each non-empty token in order,
one sequence with one verbatim `clip`. -/
def appendExtraResources (r : Request) (config : Config) (m : mapping) : mapping :=
  let resources := r.queryGet config.ExtraResourcesToken
  (stringsSplit resources ',').foldl
    (fun m resource =>
      if resource ≠ "" then
        { m with Sequences := m.Sequences ++ [{ Clips := [{ «Type» := "source", Path := resource }] }] }
      else m)
    m

/-! ### URL signing (`config.go` `SignConfig.Options`, `map.go`
`signedURLs` / `signedPath`)

The wall clock is modelled by `times : Nat → Nat`, where `times k` is the
value `time.Now()` returns at its k-th call during the request.  The
source calls `time.Now()` exactly once per request (inside `Options`, via
`signedURLs`), so only `times 0` is consumed. -/

/-- `SignConfig.Options`: `nil` (here `none`) when signing is disabled
(no access ID or nil private key); otherwise GET options with
`Expires = now + Expiration`.  The source's error result is always `nil`,
so no error component is modelled. -/
def SignConfig.Options (c : SignConfig) (now : Nat) : Option SignedURLOptions :=
  if c.AccessID = "" ∨ c.PrivateKey = none then none
  else
    some { Method := "GET", GoogleAccessID := c.AccessID,
           PrivateKey := c.PrivateKey.getD "", Expires := now + c.Expiration }

/-- `signedPath(path, opts)`: split the path on "/" into at most 3 parts;
when there are fewer than 3, return the path unchanged; otherwise sign
`(parts[1], parts[2])` and return the request-URI portion of the signed
URL. -/
def signedPath (signer : Signer) (path : String) (opts : SignedURLOptions) :
    Except String String :=
  match stringsSplitN path '/' 3 with
  | [_, bucketName, objectKey] => do
    let rawSignedURL ← signer.sign bucketName objectKey opts
    signer.requestURI rawSignedURL
  | _ => .ok path

/-- The inner clip loop of `signedURLs`: rewrite each clip's path via
`signedPath`, aborting at the first error. -/
def signClips (signer : Signer) (opts : SignedURLOptions) :
    List clip → Except String (List clip)
  | [] => .ok []
  | c :: rest => do
    let path ← signedPath signer c.Path opts
    let rest2 ← signClips signer opts rest
    .ok ({ c with Path := path } :: rest2)

/-- The outer sequence loop of `signedURLs`. -/
def signSeqs (signer : Signer) (opts : SignedURLOptions) :
    List sequence → Except String (List sequence)
  | [] => .ok []
  | s :: rest => do
    let clips ← signClips signer opts s.Clips
    let rest2 ← signSeqs signer opts rest
    .ok ({ s with Clips := clips } :: rest2)

/-- `signedURLs(config, m)`: build the signing options once (one
`time.Now()` call); when signing is disabled return the mapping unchanged;
otherwise rewrite every clip with the same options, aborting the whole
mapping at the first signing failure.  (On error the source returns the
partially overwritten `m` alongside the error; the handler discards it, so
the error branch carries no mapping.) -/
def signedURLs (config : Config) (signer : Signer) (times : Nat → Nat) (m : mapping) :
    Except String mapping :=
  match config.SignConfig.Options (times 0) with
  | none => .ok m
  | some opts => do
    let seqs ← signSeqs signer opts m.Sequences
    .ok { m with Sequences := seqs }

/-- The HTTP responses the map handler can produce: a JSON-encoded mapping,
or `http.Error` with a status code and message. -/
inductive Response where
  | json : mapping → Response
  | httpError : Nat → String → Response
  deriving Repr

/-- The request handler returned by `getMapHandler(c, client)`: reject
non-GET with 405; trim leading slashes from the URL path and reject an
empty prefix with 400; map the prefix (500 on a listing error — the
`err != iterator.Done` guard in the source is vacuous because
`getPrefixMapping` never returns the sentinel as its error); append extra
resources; sign (500 on a signing error); else encode the mapping. -/
def mapHandler (c : Config) (lister : Lister) (rmatch : Matcher) (signer : Signer)
    (times : Nat → Nat) (r : Request) : Response :=
  if r.method ≠ "GET" then .httpError 405 "method not allowed"
  else if trimLeftSlashes r.urlPath = "" then .httpError 400 "prefix cannot be empty"
  else
    match getPrefixMapping (trimLeftSlashes r.urlPath) c lister rmatch with
    | (_, some e) => .httpError 500 e
    | (m, none) =>
      match signedURLs c signer times (appendExtraResources r c m) with
      | .error e => .httpError 500 e
      | .ok m2 => .json m2

/-! ### Definitions modelled from the spec's words (for refinement
comparisons; these follow the specification text, not the source) -/

/-- Modelled from the spec: a path "matches the three-segment
storage-locator shape `/<bucket>/<key>`" when it is
`"/" ++ bucket ++ "/" ++ key` — it begins with '/' and a second '/'
follows (the key, the third segment, may itself contain slashes). -/
def isStorageLocatorShape (p : String) : Bool :=
  match p.data with
  | '/' :: rest => rest.contains '/'
  | _ => false

/-- Modelled from the spec: "any trailing slash removed" (claim C10's
description of an alternate physical prefix). -/
def stripTrailingSlashes (s : String) : String :=
  ⟨dropTrailingSlashesL s.data⟩

/-- The number of clips of a list whose path parses as a storage locator
(its 3-limited split has three parts) — the clips for which the signing
stage calls the signer. -/
def countLocatorClips (cs : List clip) : Nat :=
  (cs.filter (fun c => (stringsSplitN c.Path '/' 3).length == 3)).length

/-- Modelled from the spec (claim C1, clip loop): each storage-locator clip
is signed with its own freshly computed expiration
"now + configured expiration duration" at the time that clip is signed;
`k` counts the signing calls made so far, so the next signed clip reads
the clock as `times k`. -/
def signClipsFresh (sc : SignConfig) (signer : Signer) (times : Nat → Nat) :
    Nat → List clip → Except String (List clip)
  | _, [] => .ok []
  | k, c :: rest =>
    match stringsSplitN c.Path '/' 3 with
    | [_, bucketName, objectKey] => do
      let opts : SignedURLOptions :=
        { Method := "GET", GoogleAccessID := sc.AccessID,
          PrivateKey := sc.PrivateKey.getD "",
          Expires := times k + sc.Expiration }
      let raw ← signer.sign bucketName objectKey opts
      let uri ← signer.requestURI raw
      let rest2 ← signClipsFresh sc signer times (k + 1) rest
      .ok ({ c with Path := uri } :: rest2)
    | _ => do
      let rest2 ← signClipsFresh sc signer times k rest
      .ok (c :: rest2)

/-- Modelled from the spec (claim C1, sequence loop): sign the clips of
each sequence in order, threading the signing-call counter. -/
def signSeqsFresh (sc : SignConfig) (signer : Signer) (times : Nat → Nat) :
    Nat → List sequence → Except String (List sequence)
  | _, [] => .ok []
  | k, s :: rest => do
    let clips ← signClipsFresh sc signer times k s.Clips
    let rest2 ← signSeqsFresh sc signer times (k + countLocatorClips s.Clips) rest
    .ok ({ s with Clips := clips } :: rest2)

/-- Modelled from the spec (claim C1): the URL signing stage with a
per-clip freshly computed expiration — disabled signing passes the
manifest through; otherwise every storage-locator clip `k` (in traversal
order) is signed with `Expires = times k + Expiration`. -/
def signedURLsFreshSpec (config : Config) (signer : Signer) (times : Nat → Nat)
    (m : mapping) : Except String mapping :=
  if config.SignConfig.AccessID = "" ∨ config.SignConfig.PrivateKey = none then .ok m
  else do
    let seqs ← signSeqsFresh config.SignConfig signer times 0 m.Sequences
    .ok { m with Sequences := seqs }

/-! ### Concrete instances used by witnesses and counterexamples -/

/-- A matcher whose patterns always match (a regular expression such as
`""` matches every filename). -/
def matchAll : Matcher := fun _ _ => (true, none)

/-- A concrete abstract signer: the signed URL embeds the bucket, key and
expiration, and the request-URI extraction drops the scheme and host
(`"https://h"`, 9 characters). -/
def exSigner : Signer where
  sign := fun b k opts =>
    .ok ("https://h/" ++ b ++ "/" ++ k ++ "?Expires=" ++ toString opts.Expires)
  requestURI := fun u => .ok (u.drop 9)

/-- A signer whose signing call always fails (bad credentials). -/
def failSigner : Signer where
  sign := fun _ _ _ => .error "signing failed"
  requestURI := fun u => .ok u

/-- A lister that fails every attempt with the same transport error. -/
def failLister : Lister := fun _ _ => { objs := [], outcome := .fail "boom" }

/-- A lister that fails the first two attempts (having yielded a partial
page) and succeeds on the third. -/
def flakyLister : Lister := fun _ i =>
  if i < 2 then { objs := [{ bucket := "bkt", name := "partial_720p.mp4" }], outcome := .fail "reset" }
  else { objs := [{ bucket := "bkt", name := "asset_720p.mp4" }], outcome := .done }

/-- A lister returning one fixed object on every attempt. -/
def oneObjLister : Lister := fun _ _ =>
  { objs := [{ bucket := "bkt", name := "foo/bar/asset_720p.mp4" }], outcome := .done }

/-- Signing-enabled configuration used by concrete signing examples:
expiration duration 60 clock units. -/
def cfgSign : Config :=
  { ExtraResourcesToken := "resources",
    SignConfig := { Expiration := 60, AccessID := "access", PrivateKey := some "secret" } }

/-- Configuration with the single alternate-location prefix
`"subtitles/"`. -/
def cfgSubtitles : Config := { MapExtraPrefixes := ["subtitles/"] }

/-- Configuration with a non-normalized alternate-location prefix
(internal double slash and trailing slash). -/
def cfgDoubleSlash : Config := { MapExtraPrefixes := ["a//b/"] }

/-- A two-clip manifest of storage locators. -/
def mTwoClips : mapping :=
  { Sequences := [ { Clips := [{ «Type» := "source", Path := "/bkt/k1" }] },
                   { Clips := [{ «Type» := "source", Path := "/bkt/k2" }] } ] }

/-- A one-clip manifest whose path has two slashes but no leading slash
(as an injected extra resource could). -/
def mRelPath : mapping :=
  { Sequences := [ { Clips := [{ «Type» := "source", Path := "a/b/c" }] } ] }

/-- A request carrying the extra-resources value `"a,,b"`. -/
def reqExtra : Request :=
  { method := "GET", urlPath := "/foo",
    queryGet := fun k => if k = "resources" then "a,,b" else "" }

/-- A request with no query parameters. -/
def reqPlain : Request :=
  { method := "GET", urlPath := "/foo", queryGet := fun _ => "" }

/-- A matcher modelling `regexp.MatchString` with a malformed pattern: Go
returns `(false, err)` for every subject string. -/
def badMatcher : Matcher := fun _ _ => (false, some "error parsing regexp")

/-- Decidable equality for `Except`, so concrete engine results can be
checked by `decide`. -/
instance {ε α : Type} [DecidableEq ε] [DecidableEq α] : DecidableEq (Except ε α) := fun a b =>
  match a, b with
  | .ok x, .ok y => decidable_of_iff (x = y) (by simp)
  | .error e, .error f => decidable_of_iff (e = f) (by simp)
  | .ok _, .error _ => isFalse (by simp)
  | .error _, .ok _ => isFalse (by simp)

/-! ### Helper lemmas -/

theorem foldl_append_singleton {α β : Type} (f : α → β) (l : List α) :
    ∀ init : List β, l.foldl (fun acc x => acc ++ [f x]) init = init ++ l.map f := by
  induction l with
  | nil => intro init; simp
  | cons x l ih => intro init; simp [ih]

theorem extraFold_eq (g : String → sequence) (l : List String) :
    ∀ m : mapping,
      l.foldl (fun m r => if r ≠ "" then { m with Sequences := m.Sequences ++ [g r] } else m) m
        = { Sequences := m.Sequences ++ l.filterMap (fun r => if r ≠ "" then some (g r) else none) } := by
  induction l with
  | nil => intro m; simp
  | cons r l ih =>
    intro m
    by_cases h : r = ""
    · rw [List.foldl_cons]
      rw [show (if r ≠ "" then ({ Sequences := m.Sequences ++ [g r] } : mapping) else m) = m from
        if_neg (not_not_intro h)]
      rw [ih m]
      congr 1
      subst h
      simp [List.filterMap_cons]
    · rw [List.foldl_cons]
      rw [show (if r ≠ "" then ({ Sequences := m.Sequences ++ [g r] } : mapping) else m)
          = { Sequences := m.Sequences ++ [g r] } from if_pos h]
      rw [ih]
      simp [List.filterMap_cons, h]

theorem gpmLoop_all_ok (cfg : Config) (L : Lister) (M : Matcher) (S : String → List sequence)
    (ps : List String) :
    ∀ acc : List sequence,
      (∀ p ∈ ps, expandPrefix p cfg L M = .ok (S p)) →
      gpmLoop cfg L M ps acc = ({ Sequences := acc ++ (ps.map S).flatten }, none) := by
  induction ps with
  | nil => intro acc _; simp [gpmLoop]
  | cons p ps ih =>
    intro acc h
    have hp : expandPrefix p cfg L M = .ok (S p) := h p (by simp)
    have hrest : ∀ q ∈ ps, expandPrefix q cfg L M = .ok (S q) := fun q hq => h q (by simp [hq])
    simp only [gpmLoop, hp]
    rw [ih (acc ++ S p) hrest]
    simp

theorem breakAtChar_eq_none (sep : Char) :
    ∀ l : List Char, sep ∉ l → breakAtChar sep l = none := by
  intro l
  induction l with
  | nil => intro _; rfl
  | cons c rest ih =>
    intro h
    have hc : ¬ c = sep := fun hcs => h (by simp [hcs])
    have hr : sep ∉ rest := fun hrs => h (by simp [hrs])
    simp [breakAtChar, hc, ih hr]

theorem breakAtChar_append (sep : Char) :
    ∀ (a b : List Char), sep ∉ a → breakAtChar sep (a ++ sep :: b) = some (a, b) := by
  intro a
  induction a with
  | nil => intro b _; simp [breakAtChar]
  | cons c rest ih =>
    intro b h
    have hc : ¬ c = sep := fun hcs => h (by simp [hcs])
    have hr : sep ∉ rest := fun hrs => h (by simp [hrs])
    simp [breakAtChar, hc, ih b hr]

theorem breakAtChar_eq_some (sep : Char) :
    ∀ (l a b : List Char), breakAtChar sep l = some (a, b) → l = a ++ sep :: b ∧ sep ∉ a := by
  intro l
  induction l with
  | nil => intro a b h; simp [breakAtChar] at h
  | cons c rest ih =>
    intro a b h
    by_cases hc : c = sep
    · simp [breakAtChar, hc] at h
      obtain ⟨ha, hb⟩ := h
      subst ha; subst hb; subst hc
      exact ⟨rfl, by simp⟩
    · simp only [breakAtChar, if_neg hc] at h
      cases h2 : breakAtChar sep rest with
      | none => rw [h2] at h; simp at h
      | some p =>
        obtain ⟨a2, b2⟩ := p
        rw [h2] at h
        simp at h
        obtain ⟨ha, hb⟩ := h
        obtain ⟨hrest, hmem⟩ := ih a2 b2 h2
        subst ha; subst hb
        constructor
        · simp [hrest]
        · simp only [List.mem_cons, not_or]
          exact ⟨fun hsc => hc hsc.symm, hmem⟩

theorem splitNL_step (sep : Char) (n : Nat) (s a b : List Char)
    (h : breakAtChar sep s = some (a, b)) :
    splitNL sep (n + 2) s = a :: splitNL sep (n + 1) b := by
  rw [splitNL, h]

theorem splitN3_locator (b k : String) (hb : '/' ∉ b.data) :
    stringsSplitN ("/" ++ b ++ "/" ++ k) '/' 3 = ["", b, k] := by
  have hdata : ("/" ++ b ++ "/" ++ k).data = '/' :: (b.data ++ '/' :: k.data) := by
    simp [String.data_append]
  have h1 : breakAtChar '/' ('/' :: (b.data ++ '/' :: k.data))
      = some ([], b.data ++ '/' :: k.data) := by
    simp [breakAtChar]
  have h2 : breakAtChar '/' (b.data ++ '/' :: k.data) = some (b.data, k.data) :=
    breakAtChar_append '/' b.data k.data hb
  unfold stringsSplitN
  rw [hdata]
  rw [show (3 : Nat) = 1 + 2 from rfl]
  rw [splitNL_step '/' 1 _ _ _ h1]
  rw [show (1 + 1 : Nat) = 0 + 2 from rfl]
  rw [splitNL_step '/' 0 _ _ _ h2]
  rfl

theorem expandLoop_first_done (att : Nat → ListAttempt) (build : List GObject → List sequence)
    (j : Nat) :
    ∀ (fuel i : Nat) (e0 : String), j < fuel →
      (∀ t, t < j → (att (i + t)).outcome ≠ .done) →
      (att (i + j)).outcome = .done →
      expandLoop att build fuel i e0 = .ok (build (att (i + j)).objs) := by
  induction j with
  | zero =>
    intro fuel i e0 hj _ hdone
    cases fuel with
    | zero => omega
    | succ fuel =>
      rw [Nat.add_zero] at hdone
      simp [expandLoop, hdone]
  | succ j ih =>
    intro fuel i e0 hj hne hdone
    cases fuel with
    | zero => omega
    | succ fuel =>
      have h0 : (att i).outcome ≠ .done := by
        have := hne 0 (Nat.succ_pos j)
        rwa [Nat.add_zero] at this
      cases ho : (att i).outcome with
      | done => exact absurd ho h0
      | fail e =>
        have hstep : expandLoop att build (fuel + 1) i e0 = expandLoop att build fuel (i + 1) e := by
          simp [expandLoop, ho]
        rw [hstep]
        have hne2 : ∀ t, t < j → (att (i + 1 + t)).outcome ≠ .done := by
          intro t ht
          have := hne (t + 1) (Nat.succ_lt_succ ht)
          rwa [show i + (t + 1) = i + 1 + t by omega] at this
        have hdone2 : (att (i + 1 + j)).outcome = .done := by
          rwa [show i + (j + 1) = i + 1 + j by omega] at hdone
        rw [ih fuel (i + 1) e (Nat.lt_of_succ_lt_succ hj) hne2 hdone2]
        rw [show i + 1 + j = i + (j + 1) by omega]

theorem expandLoop_all_fail (att : Nat → ListAttempt) (build : List GObject → List sequence) :
    ∀ (fuel i : Nat) (e0 e : String), 0 < fuel →
      (∀ t, t < fuel → (att (i + t)).outcome ≠ .done) →
      (att (i + (fuel - 1))).outcome = .fail e →
      expandLoop att build fuel i e0 = .error e := by
  intro fuel
  induction fuel with
  | zero => intro i e0 e h; omega
  | succ fuel ih =>
    intro i e0 e _ hne hfail
    have h0 : (att i).outcome ≠ .done := by
      have := hne 0 (Nat.succ_pos fuel)
      rwa [Nat.add_zero] at this
    cases ho : (att i).outcome with
    | done => exact absurd ho h0
    | fail e2 =>
      have hstep : expandLoop att build (fuel + 1) i e0 = expandLoop att build fuel (i + 1) e2 := by
        simp [expandLoop, ho]
      rw [hstep]
      cases fuel with
      | zero =>
        have : e2 = e := by
          rw [show i + (0 + 1 - 1) = i by omega] at hfail
          rw [ho] at hfail
          exact (ListOutcome.fail.injEq _ _).mp hfail
        subst this
        simp [expandLoop]
      | succ fuel2 =>
        apply ih (i + 1) e2 e (Nat.succ_pos fuel2)
        · intro t ht
          have := hne (t + 1) (by omega)
          rwa [show i + (t + 1) = i + 1 + t by omega] at this
        · rwa [show i + (fuel2 + 1 + 1 - 1) = i + 1 + (fuel2 + 1 - 1) by omega] at hfail

theorem expandLoop_congr (build : List GObject → List sequence) (att att2 : Nat → ListAttempt) :
    ∀ (fuel i : Nat) (e0 : String),
      (∀ t, t < fuel → att2 (i + t) = att (i + t)) →
      expandLoop att2 build fuel i e0 = expandLoop att build fuel i e0 := by
  intro fuel
  induction fuel with
  | zero => intro i e0 _; simp [expandLoop]
  | succ fuel ih =>
    intro i e0 h
    have h0 : att2 i = att i := by
      have := h 0 (Nat.succ_pos fuel)
      rwa [Nat.add_zero] at this
    cases ho : (att i).outcome with
    | done =>
      have ho2 : (att2 i).outcome = .done := by rw [h0, ho]
      rw [show expandLoop att2 build (fuel + 1) i e0 = .ok (build (att2 i).objs) from by
        simp [expandLoop, ho2]]
      rw [show expandLoop att build (fuel + 1) i e0 = .ok (build (att i).objs) from by
        simp [expandLoop, ho]]
      rw [h0]
    | fail e =>
      have ho2 : (att2 i).outcome = .fail e := by rw [h0, ho]
      rw [show expandLoop att2 build (fuel + 1) i e0 = expandLoop att2 build fuel (i + 1) e from by
        simp [expandLoop, ho2]]
      rw [show expandLoop att build (fuel + 1) i e0 = expandLoop att build fuel (i + 1) e from by
        simp [expandLoop, ho]]
      apply ih
      intro t ht
      have := h (t + 1) (by omega)
      rwa [show i + (t + 1) = i + 1 + t by omega] at this

theorem expandLoop_ok_mem (att : Nat → ListAttempt) (build : List GObject → List sequence) :
    ∀ (fuel i : Nat) (e0 : String) (l : List sequence),
      expandLoop att build fuel i e0 = .ok l →
      ∃ t, t < fuel ∧ (att (i + t)).outcome = .done ∧ l = build (att (i + t)).objs := by
  intro fuel
  induction fuel with
  | zero => intro i e0 l h; simp [expandLoop] at h
  | succ fuel ih =>
    intro i e0 l h
    cases ho : (att i).outcome with
    | done =>
      have : Except.ok (build (att i).objs) = (Except.ok l : Except String (List sequence)) := by
        rw [← h]; simp [expandLoop, ho]
      refine ⟨0, Nat.succ_pos fuel, ?_, ?_⟩
      · rwa [Nat.add_zero]
      · rw [Nat.add_zero]
        exact ((Except.ok.injEq _ _).mp this).symm
    | fail e =>
      have h2 : expandLoop att build fuel (i + 1) e = .ok l := by
        rw [← h]; simp [expandLoop, ho]
      obtain ⟨t, ht, hdone, hl⟩ := ih (i + 1) e l h2
      refine ⟨t + 1, by omega, ?_, ?_⟩
      · rwa [show i + (t + 1) = i + 1 + t by omega]
      · rwa [show i + (t + 1) = i + 1 + t by omega]

theorem expandLoop_done_ok (att : Nat → ListAttempt) (build : List GObject → List sequence) :
    ∀ (fuel i : Nat) (e0 : String),
      (∃ t, t < fuel ∧ (att (i + t)).outcome = .done) →
      ∃ l, expandLoop att build fuel i e0 = .ok l := by
  intro fuel
  induction fuel with
  | zero => intro i e0 h; omega
  | succ fuel ih =>
    intro i e0 h
    cases ho : (att i).outcome with
    | done => exact ⟨build (att i).objs, by simp [expandLoop, ho]⟩
    | fail e =>
      obtain ⟨t, ht, hdone⟩ := h
      cases t with
      | zero =>
        rw [Nat.add_zero] at hdone
        rw [ho] at hdone
        exact absurd hdone (by simp)
      | succ t =>
        have hdone2 : (att (i + 1 + t)).outcome = .done := by
          rwa [show i + (t + 1) = i + 1 + t by omega] at hdone
        obtain ⟨l, hl⟩ := ih (i + 1) e ⟨t, by omega, hdone2⟩
        exact ⟨l, by rw [show expandLoop att build (fuel + 1) i e0
          = expandLoop att build fuel (i + 1) e from by simp [expandLoop, ho]]; exact hl⟩

theorem foldl_build_mem {α : Type} (P : α → Bool) (mk : α → sequence) (objs : List α) :
    ∀ (acc : List sequence) (s : sequence),
      s ∈ objs.foldl (fun acc obj => if P obj then acc ++ [mk obj] else acc) acc →
      s ∈ acc ∨ ∃ obj ∈ objs, P obj = true ∧ s = mk obj := by
  induction objs with
  | nil => intro acc s h; exact Or.inl h
  | cons obj objs ih =>
    intro acc s h
    rw [List.foldl_cons] at h
    cases hp : P obj with
    | true =>
      rw [if_pos hp] at h
      rcases ih (acc ++ [mk obj]) s h with hmem | ⟨o, ho, hPo, hs⟩
      · rcases List.mem_append.mp hmem with h1 | h1
        · exact Or.inl h1
        · exact Or.inr ⟨obj, by simp, hp, by simpa using h1⟩
      · exact Or.inr ⟨o, by simp [ho], hPo, hs⟩
    | false =>
      rw [if_neg (by simp [hp])] at h
      rcases ih acc s h with hmem | ⟨o, ho, hPo, hs⟩
      · exact Or.inl hmem
      · exact Or.inr ⟨o, by simp [ho], hPo, hs⟩

theorem buildSequences_mem (pat : String) (M : Matcher) (objs : List GObject) (s : sequence)
    (h : s ∈ buildSequences pat M objs) :
    ∃ obj ∈ objs,
      s = { Clips := [{ «Type» := "source", Path := "/" ++ obj.bucket ++ "/" ++ obj.name }] } := by
  unfold buildSequences at h
  have := foldl_build_mem (fun obj => (M pat (filepathBase obj.name)).1)
    (fun obj => { Clips := [{ «Type» := "source", Path := "/" ++ obj.bucket ++ "/" ++ obj.name }] })
    objs [] s h
  rcases this with hmem | ⟨obj, ho, _, hs⟩
  · simp at hmem
  · exact ⟨obj, ho, hs⟩

theorem buildSequences_nil_of_false (pat : String) (M : Matcher)
    (hM : ∀ s, (M pat s).1 = false) (objs : List GObject) :
    buildSequences pat M objs = [] := by
  unfold buildSequences
  have : ∀ (os : List GObject) (acc : List sequence),
      os.foldl (fun acc obj =>
        if (M pat (filepathBase obj.name)).1 then
          acc ++ [{ Clips := [{ «Type» := "source", Path := "/" ++ obj.bucket ++ "/" ++ obj.name }] }]
        else acc) acc = acc := by
    intro os
    induction os with
    | nil => intro acc; rfl
    | cons o os ih => intro acc; rw [List.foldl_cons, if_neg (by simp [hM])]; exact ih acc
  exact this objs []

theorem replaceFirst_first_occurrence (pat : List Char) (hpat : pat ≠ []) :
    ∀ s : List Char, hasSubstrL s pat = true →
      ∃ a b : List Char, s = a ++ pat ++ b ∧ replaceFirstL s pat [] = a ++ b
        ∧ ∀ a2 b2 : List Char, s = a2 ++ pat ++ b2 → a.length ≤ a2.length := by
  intro s
  induction s with
  | nil =>
    intro h
    cases pat with
    | nil => exact absurd rfl hpat
    | cons p ps => simp [hasSubstrL] at h
  | cons c rest ih =>
    intro h
    cases pat with
    | nil => exact absurd rfl hpat
    | cons p ps =>
      cases hp : List.isPrefixOf (p :: ps) (c :: rest) with
      | true =>
        obtain ⟨t, ht⟩ := List.isPrefixOf_iff_prefix.mp hp
        refine ⟨[], t, by simpa using ht.symm, ?_, fun a2 b2 _ => Nat.zero_le _⟩
        rw [show replaceFirstL (c :: rest) (p :: ps) [] = (c :: rest).drop (p :: ps).length from by
          simp [replaceFirstL, hp]]
        rw [← ht, List.drop_left]
        rfl
      | false =>
        have h2 : hasSubstrL rest (p :: ps) = true := by
          have := h
          rw [show hasSubstrL (c :: rest) (p :: ps)
            = (List.isPrefixOf (p :: ps) (c :: rest) || hasSubstrL rest (p :: ps)) from rfl] at this
          rw [hp] at this
          simpa using this
        obtain ⟨a, b, hs, hr, hmin⟩ := ih h2
        refine ⟨c :: a, b, by simp [hs], ?_, ?_⟩
        · rw [show replaceFirstL (c :: rest) (p :: ps) []
            = c :: replaceFirstL rest (p :: ps) [] from by simp [replaceFirstL, hp]]
          rw [hr]
          rfl
        · intro a2 b2 heq
          cases a2 with
          | nil =>
            exfalso
            have hpre : List.isPrefixOf (p :: ps) (c :: rest) = true :=
              List.isPrefixOf_iff_prefix.mpr ⟨b2, by simpa using heq.symm⟩
            rw [hp] at hpre
            exact Bool.false_ne_true hpre
          | cons c2 a2t =>
            have hc : c = c2 ∧ rest = a2t ++ (p :: ps) ++ b2 := by
              have := heq
              simp only [List.cons_append] at this
              exact ⟨(List.cons.injEq _ _ _ _).mp this |>.1, (List.cons.injEq _ _ _ _).mp this |>.2⟩
            simpa using Nat.succ_le_succ (hmin a2t b2 hc.2)

theorem except_bind_ok {ε α β : Type} (a : α) (f : α → Except ε β) :
    (Except.ok a >>= f) = f a := rfl

theorem except_bind_error {ε α β : Type} (e : ε) (f : α → Except ε β) :
    ((Except.error e : Except ε α) >>= f) = Except.error e := rfl

theorem signClips_forall2 (signer : Signer) (opts : SignedURLOptions) :
    ∀ (cs cs2 : List clip), signClips signer opts cs = .ok cs2 →
      List.Forall₂ (fun c c2 => signedPath signer c.Path opts = .ok c2.Path
        ∧ c2.«Type» = c.«Type») cs cs2 := by
  intro cs
  induction cs with
  | nil =>
    intro cs2 h
    have : ([] : List clip) = cs2 := (Except.ok.injEq _ _).mp h
    rw [← this]
    exact List.Forall₂.nil
  | cons c rest ih =>
    intro cs2 h
    rw [show signClips signer opts (c :: rest)
        = (signedPath signer c.Path opts >>= fun path =>
            signClips signer opts rest >>= fun rest2 =>
            Except.ok ({ c with Path := path } :: rest2)) from rfl] at h
    cases hp : signedPath signer c.Path opts with
    | error e =>
      rw [hp, except_bind_error] at h
      exact Except.noConfusion h
    | ok p =>
      rw [hp, except_bind_ok] at h
      cases hr : signClips signer opts rest with
      | error e =>
        rw [hr, except_bind_error] at h
        exact Except.noConfusion h
      | ok rest2 =>
        rw [hr, except_bind_ok] at h
        have hcs2 : ({ c with Path := p } : clip) :: rest2 = cs2 := (Except.ok.injEq _ _).mp h
        rw [← hcs2]
        exact List.Forall₂.cons ⟨hp, rfl⟩ (ih rest2 hr)

theorem signSeqs_forall2 (signer : Signer) (opts : SignedURLOptions) :
    ∀ (ss ss2 : List sequence), signSeqs signer opts ss = .ok ss2 →
      List.Forall₂ (fun s s2 => List.Forall₂
        (fun c c2 => signedPath signer c.Path opts = .ok c2.Path ∧ c2.«Type» = c.«Type»)
        s.Clips s2.Clips) ss ss2 := by
  intro ss
  induction ss with
  | nil =>
    intro ss2 h
    have : ([] : List sequence) = ss2 := (Except.ok.injEq _ _).mp h
    rw [← this]
    exact List.Forall₂.nil
  | cons s rest ih =>
    intro ss2 h
    rw [show signSeqs signer opts (s :: rest)
        = (signClips signer opts s.Clips >>= fun clips =>
            signSeqs signer opts rest >>= fun rest2 =>
            Except.ok ({ s with Clips := clips } :: rest2)) from rfl] at h
    cases hc : signClips signer opts s.Clips with
    | error e =>
      rw [hc, except_bind_error] at h
      exact Except.noConfusion h
    | ok clips =>
      rw [hc, except_bind_ok] at h
      cases hr : signSeqs signer opts rest with
      | error e =>
        rw [hr, except_bind_error] at h
        exact Except.noConfusion h
      | ok rest2 =>
        rw [hr, except_bind_ok] at h
        have hss2 : ({ s with Clips := clips } : sequence) :: rest2 = ss2 :=
          (Except.ok.injEq _ _).mp h
        rw [← hss2]
        exact List.Forall₂.cons (signClips_forall2 signer opts s.Clips clips hc) (ih rest2 hr)

theorem splitAllChar_ne_nil (sep : Char) : ∀ l : List Char, splitAllChar sep l ≠ [] := by
  intro l
  cases l with
  | nil => simp [splitAllChar]
  | cons c rest =>
    by_cases h : c = sep
    · simp [splitAllChar, h]
    · simp only [splitAllChar, if_neg h]
      cases splitAllChar sep rest with
      | nil => simp
      | cons hd tl => simp

theorem splitAllChar_append_sep (sep : Char) :
    ∀ l : List Char, splitAllChar sep (l ++ [sep]) = splitAllChar sep l ++ [[]] := by
  intro l
  induction l with
  | nil => simp [splitAllChar]
  | cons c rest ih =>
    by_cases h : c = sep
    · simp [splitAllChar, h, ih]
    · rw [List.cons_append]
      rw [show splitAllChar sep (c :: (rest ++ [sep]))
          = match splitAllChar sep (rest ++ [sep]) with
            | [] => [[c]]
            | hd :: tl => (c :: hd) :: tl from by simp [splitAllChar, h]]
      rw [show splitAllChar sep (c :: rest)
          = match splitAllChar sep rest with
            | [] => [[c]]
            | hd :: tl => (c :: hd) :: tl from by simp [splitAllChar, h]]
      rw [ih]
      cases hs : splitAllChar sep rest with
      | nil => exact absurd hs (splitAllChar_ne_nil sep rest)
      | cons hd tl => simp

theorem cleanSegs_append_empty (rooted : Bool) :
    ∀ (segs stack : List String),
      cleanSegs rooted stack (segs ++ [""]) = cleanSegs rooted stack segs := by
  intro segs
  induction segs with
  | nil =>
    intro stack
    rw [List.nil_append]
    rw [show cleanSegs rooted stack [""] = cleanSegs rooted stack [] from by
      simp [cleanSegs]]
  | cons seg rest ih =>
    intro stack
    rw [List.cons_append]
    by_cases h1 : seg = "" ∨ seg = "."
    · rw [show cleanSegs rooted stack (seg :: (rest ++ [""])) = cleanSegs rooted stack (rest ++ [""])
        from by simp [cleanSegs, h1]]
      rw [show cleanSegs rooted stack (seg :: rest) = cleanSegs rooted stack rest
        from by simp [cleanSegs, h1]]
      exact ih stack
    · by_cases h2 : seg = ".."
      · cases stack with
        | nil =>
          by_cases hr : rooted
          · rw [show cleanSegs rooted [] (seg :: (rest ++ [""])) = cleanSegs rooted [] (rest ++ [""])
              from by simp [cleanSegs, h1, h2, hr]]
            rw [show cleanSegs rooted [] (seg :: rest) = cleanSegs rooted [] rest
              from by simp [cleanSegs, h1, h2, hr]]
            exact ih []
          · rw [show cleanSegs rooted [] (seg :: (rest ++ [""]))
                = cleanSegs rooted [".."] (rest ++ [""]) from by simp [cleanSegs, h1, h2, hr]]
            rw [show cleanSegs rooted [] (seg :: rest) = cleanSegs rooted [".."] rest
              from by simp [cleanSegs, h1, h2, hr]]
            exact ih [".."]
        | cons top stack2 =>
          by_cases ht : top = ".."
          · rw [show cleanSegs rooted (top :: stack2) (seg :: (rest ++ [""]))
                = cleanSegs rooted (".." :: top :: stack2) (rest ++ [""]) from by
              simp [cleanSegs, h1, h2, ht]]
            rw [show cleanSegs rooted (top :: stack2) (seg :: rest)
                = cleanSegs rooted (".." :: top :: stack2) rest from by
              simp [cleanSegs, h1, h2, ht]]
            exact ih (".." :: top :: stack2)
          · rw [show cleanSegs rooted (top :: stack2) (seg :: (rest ++ [""]))
                = cleanSegs rooted stack2 (rest ++ [""]) from by simp [cleanSegs, h1, h2, ht]]
            rw [show cleanSegs rooted (top :: stack2) (seg :: rest) = cleanSegs rooted stack2 rest
              from by simp [cleanSegs, h1, h2, ht]]
            exact ih stack2
      · rw [show cleanSegs rooted stack (seg :: (rest ++ [""]))
            = cleanSegs rooted (seg :: stack) (rest ++ [""]) from by simp [cleanSegs, h1, h2]]
        rw [show cleanSegs rooted stack (seg :: rest) = cleanSegs rooted (seg :: stack) rest
          from by simp [cleanSegs, h1, h2]]
        exact ih (seg :: stack)

theorem string_ne_empty_data {s : String} (h : s ≠ "") : s.data ≠ [] := by
  intro hd
  apply h
  cases s with
  | mk d => cases hd; rfl

theorem pathClean_append_slash (p : String) (hp : p ≠ "") :
    pathClean (p ++ "/") = pathClean p := by
  have hdata : (p ++ "/").data = p.data ++ ['/'] := by simp [String.data_append]
  have hne : p ++ "/" ≠ "" := by
    intro h
    have := congrArg String.data h
    rw [hdata] at this
    simp at this
  unfold pathClean
  rw [if_neg hne, if_neg hp]
  have hrooted : ((p ++ "/").data.head? == some '/') = (p.data.head? == some '/') := by
    rw [hdata]
    cases hpd : p.data with
    | nil => exact absurd hpd (string_ne_empty_data hp)
    | cons c rest => simp
  rw [hrooted]
  rw [hdata, splitAllChar_append_sep, List.map_append]
  rw [show (List.map String.mk [[]] : List String) = [""] from rfl]
  unfold pathBody
  rw [cleanSegs_append_empty]

theorem pathSplitFile_append_slash (s : String) : pathSplitFile (s ++ "/") = "" := by
  unfold pathSplitFile
  have hdata : (s ++ "/").data = s.data ++ ['/'] := by simp [String.data_append]
  rw [hdata]
  unfold afterLastSlashL
  rw [List.foldl_append]
  simp

theorem string_append_empty (s : String) : s ++ "" = s := by
  cases s with
  | mk d =>
    show String.mk (d ++ []) = String.mk d
    rw [List.append_nil]

theorem pathJoin2_empty_right (p : String) :
    pathJoin2 p "" = if p = "" then "" else pathClean p := by
  by_cases hp : p = ""
  · simp [pathJoin2, hp]
  · rw [if_neg hp]
    unfold pathJoin2
    rw [if_neg hp]
    rw [string_append_empty (p ++ "/")]
    exact pathClean_append_slash p hp

theorem count_lt_two_splitN (p : String) (h : p.data.count '/' < 2) :
    stringsSplitN p '/' 3 = [p] ∨ ∃ a b : List Char, stringsSplitN p '/' 3 = [⟨a⟩, ⟨b⟩] := by
  unfold stringsSplitN
  cases hb : breakAtChar '/' p.data with
  | none =>
    left
    rw [show (3 : Nat) = 1 + 2 from rfl]
    rw [show splitNL '/' (1 + 2) p.data = [p.data] from by rw [splitNL, hb]]
    simp
  | some pr =>
    obtain ⟨a, b⟩ := pr
    right
    obtain ⟨hsplit, hna⟩ := breakAtChar_eq_some '/' p.data a b hb
    have hcb : b.count '/' = 0 := by
      have : p.data.count '/' = a.count '/' + (1 + b.count '/') := by
        rw [hsplit]
        simp [List.count_append, List.count_cons]
        omega
      have ha0 : a.count '/' = 0 := List.count_eq_zero.mpr hna
      omega
    have hnb : '/' ∉ b := List.count_eq_zero.mp hcb
    refine ⟨a, b, ?_⟩
    rw [show (3 : Nat) = 1 + 2 from rfl]
    rw [splitNL_step '/' 1 p.data a b hb]
    rw [show (1 + 1 : Nat) = 0 + 2 from rfl]
    rw [show splitNL '/' (0 + 2) b = [b] from by rw [splitNL, breakAtChar_eq_none '/' b hnb]]
    rfl

theorem getPrefixes_eq (op : String) (cfg : Config) :
    getPrefixes op cfg
      = op :: cfg.MapExtraPrefixes.map (fun p => pathJoin2 p (pathSplitFile op)) := by
  show cfg.MapExtraPrefixes.foldl
    (fun prefixes p => prefixes ++ [pathJoin2 p (pathSplitFile op)]) [op] = _
  rw [foldl_append_singleton (fun p => pathJoin2 p (pathSplitFile op)) cfg.MapExtraPrefixes [op]]
  rfl

/-! ### Claim theorems -/

/-- C4: for every physical-prefix expansion, a listing attempt failing with
anything but the "no more results" sentinel discards that attempt's results
and restarts the whole listing; at most 5 attempts are made (the result
depends only on attempts 0..4); reaching the sentinel on the first
succeeding attempt `j` returns exactly that attempt's sequences; and if all
5 attempts fail the expansion fails with the last error and returns no
sequences. -/
theorem C4_retry_policy (pfx : String) (cfg : Config) (L : Lister) (M : Matcher) :
    (∀ j, j < maxTry →
      (∀ t, t < j → (L (selectFilter pfx cfg).2 t).outcome ≠ .done) →
      (L (selectFilter pfx cfg).2 j).outcome = .done →
      expandPrefix pfx cfg L M
        = .ok (buildSequences (selectFilter pfx cfg).1 M (L (selectFilter pfx cfg).2 j).objs))
    ∧ (∀ e, (∀ t, t < maxTry → (L (selectFilter pfx cfg).2 t).outcome ≠ .done) →
        (L (selectFilter pfx cfg).2 (maxTry - 1)).outcome = .fail e →
        expandPrefix pfx cfg L M = .error e)
    ∧ (∀ L2 : Lister, (∀ t, t < maxTry → L2 (selectFilter pfx cfg).2 t = L (selectFilter pfx cfg).2 t) →
        expandPrefix pfx cfg L2 M = expandPrefix pfx cfg L M) := by
  refine ⟨?_, ?_, ?_⟩
  · intro j hj hne hdone
    show expandLoop (L (selectFilter pfx cfg).2) (buildSequences (selectFilter pfx cfg).1 M)
      maxTry 0 "" = _
    rw [expandLoop_first_done (L (selectFilter pfx cfg).2)
      (buildSequences (selectFilter pfx cfg).1 M) j maxTry 0 "" hj
      (fun t ht => by rw [Nat.zero_add]; exact hne t ht)
      (by rw [Nat.zero_add]; exact hdone)]
    rw [Nat.zero_add]
  · intro e hne hfail
    show expandLoop (L (selectFilter pfx cfg).2) (buildSequences (selectFilter pfx cfg).1 M)
      maxTry 0 "" = _
    exact expandLoop_all_fail (L (selectFilter pfx cfg).2)
      (buildSequences (selectFilter pfx cfg).1 M) maxTry 0 "" e (by decide)
      (fun t ht => by rw [Nat.zero_add]; exact hne t ht)
      (by rw [Nat.zero_add]; exact hfail)
  · intro L2 h
    show expandLoop (L2 (selectFilter pfx cfg).2) (buildSequences (selectFilter pfx cfg).1 M)
        maxTry 0 ""
      = expandLoop (L (selectFilter pfx cfg).2) (buildSequences (selectFilter pfx cfg).1 M)
        maxTry 0 ""
    exact expandLoop_congr (buildSequences (selectFilter pfx cfg).1 M)
      (L (selectFilter pfx cfg).2) (L2 (selectFilter pfx cfg).2) maxTry 0 ""
      (fun t ht => by rw [Nat.zero_add]; exact h t ht)

theorem C4_witness :
    (∀ t, t < 2 → (flakyLister "foo" t).outcome ≠ ListOutcome.done)
    ∧ (flakyLister "foo" 2).outcome = ListOutcome.done
    ∧ expandPrefix "foo" cfgSign flakyLister matchAll
        = .ok [{ Clips := [{ «Type» := "source", Path := "/bkt/asset_720p.mp4" }] }]
    ∧ expandPrefix "foo" cfgSign failLister matchAll = .error "boom" := by
  refine ⟨by decide, by decide, ?_, ?_⟩
  · exact (C4_retry_policy "foo" cfgSign flakyLister matchAll).1 2 (by decide) (by decide)
      (by decide)
  · exact (C4_retry_policy "foo" cfgSign failLister matchAll).2.1 "boom" (by decide) (by decide)

/-- C5: the ordered physical prefixes are the original prefix followed by
each alternate prefix joined (Go `path.Join`) with the last path segment of
the original, in configuration order; `foo/bar/asset` with alternate
`subtitles/` yields exactly `subtitles/asset`; and the manifest
concatenates per-prefix expansions in this order with no deduplication. -/
theorem C5_fanout_order (op : String) (cfg : Config) :
    getPrefixes op cfg = op :: cfg.MapExtraPrefixes.map (fun p => pathJoin2 p (pathSplitFile op))
    ∧ getPrefixes "foo/bar/asset" cfgSubtitles = ["foo/bar/asset", "subtitles/asset"]
    ∧ (∀ (L : Lister) (M : Matcher) (S : String → List sequence),
        (∀ p ∈ getPrefixes op cfg, expandPrefix p cfg L M = .ok (S p)) →
        getPrefixMapping op cfg L M = ({ Sequences := ((getPrefixes op cfg).map S).flatten }, none)) := by
  refine ⟨getPrefixes_eq op cfg, by decide, ?_⟩
  · intro L M S h
    show gpmLoop cfg L M (getPrefixes op cfg) [] = _
    rw [gpmLoop_all_ok cfg L M S (getPrefixes op cfg) [] h]
    rw [List.nil_append]

theorem C5_witness :
    (∀ p ∈ getPrefixes "foo/bar/asset" cfgSubtitles,
      expandPrefix p cfgSubtitles oneObjLister matchAll
        = .ok [{ Clips := [{ «Type» := "source", Path := "/bkt/foo/bar/asset_720p.mp4" }] }])
    ∧ getPrefixMapping "foo/bar/asset" cfgSubtitles oneObjLister matchAll
        = ({ Sequences := [{ Clips := [{ «Type» := "source", Path := "/bkt/foo/bar/asset_720p.mp4" }] },
                          { Clips := [{ «Type» := "source", Path := "/bkt/foo/bar/asset_720p.mp4" }] }] },
           none) := by
  refine ⟨by decide, ?_⟩
  exact (C5_fanout_order "foo/bar/asset" cfgSubtitles).2.2 oneObjLister matchAll
    (fun _ => [{ Clips := [{ «Type» := "source", Path := "/bkt/foo/bar/asset_720p.mp4" }] }])
    (by decide)

/-- C7: the configured extra-resources query parameter's value is split on
commas and each non-empty token appends, in order and after all
listing-derived sequences, one Sequence with one verbatim source Clip
(never filtered); the value `a,,b` appends exactly the two Sequences for
`a` and `b`, and an absent parameter appends nothing. -/
theorem C7_extra_resources :
    (∀ (r : Request) (config : Config) (m : mapping),
      appendExtraResources r config m
        = { Sequences := m.Sequences
            ++ (stringsSplit (r.queryGet config.ExtraResourcesToken) ',').filterMap
                (fun t => if t ≠ "" then
                  some { Clips := [{ «Type» := "source", Path := t }] } else none) })
    ∧ appendExtraResources reqExtra cfgSign { Sequences := [] }
        = { Sequences := [ { Clips := [{ «Type» := "source", Path := "a" }] },
                           { Clips := [{ «Type» := "source", Path := "b" }] } ] }
    ∧ (∀ m : mapping, appendExtraResources reqPlain cfgSign m = m) := by
  refine ⟨?_, by decide, ?_⟩
  · intro r config m
    show (stringsSplit (r.queryGet config.ExtraResourcesToken) ',').foldl
      (fun m resource => if resource ≠ "" then
        { m with Sequences := m.Sequences
            ++ [{ Clips := [{ «Type» := "source", Path := resource }] }] } else m) m = _
    exact extraFold_eq (fun t => { Clips := [{ «Type» := "source", Path := t }] })
      (stringsSplit (r.queryGet config.ExtraResourcesToken) ',') m
  · intro m
    show (stringsSplit (reqPlain.queryGet cfgSign.ExtraResourcesToken) ',').foldl
      (fun m resource => if resource ≠ "" then
        { m with Sequences := m.Sequences
            ++ [{ Clips := [{ «Type» := "source", Path := resource }] }] } else m) m = m
    rw [show stringsSplit (reqPlain.queryGet cfgSign.ExtraResourcesToken) ',' = [""] from rfl]
    rw [List.foldl_cons, if_neg (not_not_intro rfl)]
    rfl

/-- C9: when the selected filter pattern is malformed (Go
`regexp.MatchString` returns a false match flag with an error, and the
source discards the error), every listed object is excluded — a successful
expansion returns no sequences — and the malformed pattern never makes the
expansion fail: the expansion still succeeds whenever some attempt reaches
the sentinel. -/
theorem C9_malformed_filter (pfx : String) (cfg : Config) (L : Lister) (M : Matcher)
    (hM : ∀ s, (M (selectFilter pfx cfg).1 s).1 = false) :
    (∀ l, expandPrefix pfx cfg L M = .ok l → l = [])
    ∧ ((∃ t, t < maxTry ∧ (L (selectFilter pfx cfg).2 t).outcome = .done) →
        expandPrefix pfx cfg L M = .ok []) := by
  have hbuild : ∀ objs, buildSequences (selectFilter pfx cfg).1 M objs = [] :=
    buildSequences_nil_of_false (selectFilter pfx cfg).1 M hM
  constructor
  · intro l hok
    have hok2 : expandLoop (L (selectFilter pfx cfg).2)
        (buildSequences (selectFilter pfx cfg).1 M) maxTry 0 "" = .ok l := hok
    obtain ⟨t, _, _, hl⟩ := expandLoop_ok_mem _ _ maxTry 0 "" l hok2
    rw [hl, hbuild]
  · intro ⟨t, ht, hdone⟩
    obtain ⟨l, hl⟩ := expandLoop_done_ok (L (selectFilter pfx cfg).2)
      (buildSequences (selectFilter pfx cfg).1 M) maxTry 0 ""
      ⟨t, ht, by rw [Nat.zero_add]; exact hdone⟩
    have hok : expandPrefix pfx cfg L M = .ok l := hl
    obtain ⟨t2, _, _, hl2⟩ := expandLoop_ok_mem _ _ maxTry 0 "" l hl
    rw [hok, hl2, hbuild]

theorem C9_witness :
    (∀ s, (badMatcher (selectFilter "foo" cfgSign).1 s).1 = false)
    ∧ (flakyLister "foo" 2).outcome = ListOutcome.done
    ∧ expandPrefix "foo" cfgSign flakyLister badMatcher = .ok [] := by
  refine ⟨fun s => rfl, by decide, ?_⟩
  exact (C9_malformed_filter "foo" cfgSign flakyLister badMatcher (fun s => rfl)).2
    ⟨2, by decide, by decide⟩

/-- C3: every clip produced by a listing-based expansion has, prior to
signing, a path of exactly three slash-delimited segments in the
3-limited decomposition the signing stage uses: the empty segment, the
bucket name, and the object key (assuming, as GCS guarantees, that bucket
names contain no slash). -/
theorem C3_listing_clip_shape (pfx : String) (cfg : Config) (L : Lister) (M : Matcher)
    (hB : ∀ i obj, obj ∈ (L (selectFilter pfx cfg).2 i).objs → '/' ∉ obj.bucket.data) :
    ∀ l, expandPrefix pfx cfg L M = .ok l →
      ∀ s ∈ l, ∀ c ∈ s.Clips,
        ∃ b k : String, '/' ∉ b.data ∧ c.Path = "/" ++ b ++ "/" ++ k
          ∧ stringsSplitN c.Path '/' 3 = ["", b, k] := by
  intro l hok s hs c hc
  have hok2 : expandLoop (L (selectFilter pfx cfg).2)
      (buildSequences (selectFilter pfx cfg).1 M) maxTry 0 "" = .ok l := hok
  obtain ⟨t, _, _, hl⟩ := expandLoop_ok_mem _ _ maxTry 0 "" l hok2
  rw [hl] at hs
  obtain ⟨obj, hobj, hseq⟩ := buildSequences_mem _ M _ s hs
  rw [hseq] at hc
  have hc2 : c = { «Type» := "source", Path := "/" ++ obj.bucket ++ "/" ++ obj.name } := by
    simpa using hc
  have hbucket : '/' ∉ obj.bucket.data := hB t obj (by rw [← Nat.zero_add t]; exact hobj)
  refine ⟨obj.bucket, obj.name, hbucket, by rw [hc2], ?_⟩
  rw [hc2]
  exact splitN3_locator obj.bucket obj.name hbucket

theorem C3_witness :
    expandPrefix "foo" cfgSign oneObjLister matchAll
      = .ok [{ Clips := [{ «Type» := "source", Path := "/bkt/foo/bar/asset_720p.mp4" }] }]
    ∧ ∃ b k : String, '/' ∉ b.data
        ∧ ("/bkt/foo/bar/asset_720p.mp4" : String) = "/" ++ b ++ "/" ++ k
        ∧ stringsSplitN "/bkt/foo/bar/asset_720p.mp4" '/' 3 = ["", b, k] := by
  refine ⟨by decide, ?_⟩
  exact C3_listing_clip_shape "foo" cfgSign oneObjLister matchAll
    (by intro i obj h; simp [oneObjLister] at h; rw [h]; decide)
    [{ Clips := [{ «Type» := "source", Path := "/bkt/foo/bar/asset_720p.mp4" }] }]
    (by decide)
    { Clips := [{ «Type» := "source", Path := "/bkt/foo/bar/asset_720p.mp4" }] }
    (by decide)
    { «Type» := "source", Path := "/bkt/foo/bar/asset_720p.mp4" }
    (by decide)

/-- C8: a physical prefix containing the reserved marker `__HD` selects the
high-definition filter pattern and has exactly the first occurrence of the
marker removed before it is handed to the lister; a prefix without the
marker selects the standard pattern and reaches the lister unchanged. -/
theorem C8_hd_marker (pfx : String) (cfg : Config) :
    (stringsContains pfx "__HD" = true →
      (selectFilter pfx cfg).1 = cfg.MapRegexHDFilter
      ∧ ∃ a b : String, pfx = a ++ "__HD" ++ b ∧ (selectFilter pfx cfg).2 = a ++ b
          ∧ ∀ a2 b2 : String, pfx = a2 ++ "__HD" ++ b2 → a.length ≤ a2.length)
    ∧ (stringsContains pfx "__HD" = false →
      selectFilter pfx cfg = (cfg.MapRegexFilter, pfx))
    ∧ (∀ (L L2 : Lister) (M : Matcher),
        (∀ i, L2 (selectFilter pfx cfg).2 i = L (selectFilter pfx cfg).2 i) →
        expandPrefix pfx cfg L2 M = expandPrefix pfx cfg L M) := by
  refine ⟨?_, ?_, ?_⟩
  · intro hcont
    constructor
    · simp [selectFilter, hcont]
    · obtain ⟨la, lb, hs, hr, hmin⟩ :=
        replaceFirst_first_occurrence ("__HD".data) (by decide) pfx.data hcont
      refine ⟨⟨la⟩, ⟨lb⟩, ?_, ?_, ?_⟩
      · have : pfx = String.mk (la ++ "__HD".data ++ lb) := by
          rw [← hs]
        rw [this]
        rfl
      · rw [show (selectFilter pfx cfg).2 = stringsReplaceOnce pfx "__HD" "" from by
          simp [selectFilter, hcont]]
        show String.mk (replaceFirstL pfx.data "__HD".data [] ) = _
        rw [hr]
        rfl
      · intro a2 b2 heq
        have hdat : pfx.data = a2.data ++ "__HD".data ++ b2.data := by
          rw [heq]
          simp [String.data_append]
        exact hmin a2.data b2.data hdat
  · intro hcont
    simp [selectFilter, hcont]
  · intro L L2 M h
    show expandLoop (L2 (selectFilter pfx cfg).2) (buildSequences (selectFilter pfx cfg).1 M)
        maxTry 0 ""
      = expandLoop (L (selectFilter pfx cfg).2) (buildSequences (selectFilter pfx cfg).1 M)
        maxTry 0 ""
    exact expandLoop_congr (buildSequences (selectFilter pfx cfg).1 M)
      (L (selectFilter pfx cfg).2) (L2 (selectFilter pfx cfg).2) maxTry 0 ""
      (fun t _ => h (0 + t))

theorem C8_witness :
    stringsContains "foo__HDbar__HD" "__HD" = true
    ∧ stringsContains "plain" "__HD" = false
    ∧ (selectFilter "foo__HDbar__HD" cfgSign).1 = cfgSign.MapRegexHDFilter
    ∧ (∃ a b : String, ("foo__HDbar__HD" : String) = a ++ "__HD" ++ b
        ∧ (selectFilter "foo__HDbar__HD" cfgSign).2 = a ++ b
        ∧ ∀ a2 b2 : String, ("foo__HDbar__HD" : String) = a2 ++ "__HD" ++ b2 →
            a.length ≤ a2.length)
    ∧ selectFilter "plain" cfgSign = (cfgSign.MapRegexFilter, "plain") := by
  refine ⟨by decide, by decide, ?_, ?_, ?_⟩
  · exact ((C8_hd_marker "foo__HDbar__HD" cfgSign).1 (by decide)).1
  · exact ((C8_hd_marker "foo__HDbar__HD" cfgSign).1 (by decide)).2
  · exact (C8_hd_marker "plain" cfgSign).2.1 (by decide)

/-- C2 (amended): `signedPath` decides by whether splitting the path on "/"
with limit 3 yields three parts, i.e. whether the path contains at least
two slashes: a path of the shape `/<bucket>/<key>` (leading slash,
slash-free bucket) is replaced with the request-URI portion of the URL the
signer returns for that bucket and key, and a path with fewer than two
slashes is passed through unchanged — but, contrary to the original claim,
a path with two or more slashes that does not start with '/' is not passed
through either (see the counterexample). -/
theorem C2_signing_shape (signer : Signer) (opts : SignedURLOptions) :
    (∀ b k : String, '/' ∉ b.data →
      signedPath signer ("/" ++ b ++ "/" ++ k) opts
        = (signer.sign b k opts >>= signer.requestURI))
    ∧ (∀ p : String, p.data.count '/' < 2 → signedPath signer p opts = .ok p) := by
  constructor
  · intro b k hb
    unfold signedPath
    rw [splitN3_locator b k hb]
  · intro p hcount
    rcases count_lt_two_splitN p hcount with h1 | ⟨a, b, h2⟩
    · unfold signedPath
      rw [h1]
    · unfold signedPath
      rw [h2]

/-- C2 (counterexample): the injected path `a/b/c` does not match the
storage-locator shape `/<bucket>/<key>`, yet signing does not pass it
through unchanged: it is signed with bucket `b` and key `c`. -/
theorem C2_counterexample :
    isStorageLocatorShape "a/b/c" = false
    ∧ signedURLs cfgSign exSigner (fun k => k) mRelPath
        = .ok { Sequences := [ { Clips := [{ «Type» := "source", Path := "/b/c?Expires=60" }] } ] }
    ∧ ("/b/c?Expires=60" : String) ≠ "a/b/c" := by
  exact ⟨by decide, by decide, by decide⟩

theorem C2_witness :
    ('/' ∉ ("bkt" : String).data)
    ∧ signedPath exSigner ("/" ++ "bkt" ++ "/" ++ "k1")
        { Method := "GET", GoogleAccessID := "access", PrivateKey := "secret", Expires := 60 }
        = (exSigner.sign "bkt" "k1"
            { Method := "GET", GoogleAccessID := "access", PrivateKey := "secret", Expires := 60 }
          >>= exSigner.requestURI)
    ∧ (("nofile.mp4" : String).data.count '/' < 2)
    ∧ signedPath exSigner "nofile.mp4"
        { Method := "GET", GoogleAccessID := "access", PrivateKey := "secret", Expires := 60 }
        = .ok "nofile.mp4" := by
  refine ⟨by decide, ?_, by decide, ?_⟩
  · exact (C2_signing_shape exSigner
      { Method := "GET", GoogleAccessID := "access", PrivateKey := "secret", Expires := 60 }).1
      "bkt" "k1" (by decide)
  · exact (C2_signing_shape exSigner
      { Method := "GET", GoogleAccessID := "access", PrivateKey := "secret", Expires := 60 }).2
      "nofile.mp4" (by decide)

/-- C1 (amended): when signing is enabled, the signing options — and with
them the expiration timestamp — are built once per request from the single
clock reading `times 0`, as `times 0 + Expiration`, and every clip of the
request is signed against that one shared options value (each output
clip's path is `signedPath` of the input clip under the same `opts`). -/
theorem C1_shared_expiration (cfg : Config) (signer : Signer) (times : Nat → Nat)
    (m ms : mapping) (opts : SignedURLOptions)
    (hok : signedURLs cfg signer times m = .ok ms)
    (hopts : cfg.SignConfig.Options (times 0) = some opts) :
    opts.Expires = times 0 + cfg.SignConfig.Expiration
    ∧ List.Forall₂ (fun s s2 => List.Forall₂
        (fun c c2 => signedPath signer c.Path opts = .ok c2.Path ∧ c2.«Type» = c.«Type»)
        s.Clips s2.Clips) m.Sequences ms.Sequences := by
  constructor
  · unfold SignConfig.Options at hopts
    by_cases hd : cfg.SignConfig.AccessID = "" ∨ cfg.SignConfig.PrivateKey = none
    · rw [if_pos hd] at hopts
      exact Option.noConfusion hopts
    · rw [if_neg hd] at hopts
      have h2 := (Option.some.injEq _ _).mp hopts
      rw [← h2]
  · have hrun : (signSeqs signer opts m.Sequences >>= fun seqs =>
        Except.ok { m with Sequences := seqs }) = .ok ms := by
      have h0 : signedURLs cfg signer times m
          = match cfg.SignConfig.Options (times 0) with
            | none => .ok m
            | some o => signSeqs signer o m.Sequences >>= fun seqs =>
                Except.ok { m with Sequences := seqs } := rfl
      rw [h0, hopts] at hok
      exact hok
    cases hs : signSeqs signer opts m.Sequences with
    | error e =>
      rw [hs, except_bind_error] at hrun
      exact Except.noConfusion hrun
    | ok seqs =>
      rw [hs, except_bind_ok] at hrun
      have h3 : ({ m with Sequences := seqs } : mapping) = ms := (Except.ok.injEq _ _).mp hrun
      rw [← h3]
      exact signSeqs_forall2 signer opts m.Sequences seqs hs

/-- C1 (counterexample): with a strictly advancing clock, the source signs
both clips of a two-clip manifest with the same expiration (the one
computed when the options were built), while the per-clip-fresh
specification model gives the second clip a later expiration — the two
outputs differ. -/
theorem C1_counterexample :
    signedURLs cfgSign exSigner (fun k => k) mTwoClips
      = .ok { Sequences := [ { Clips := [{ «Type» := "source", Path := "/bkt/k1?Expires=60" }] },
                             { Clips := [{ «Type» := "source", Path := "/bkt/k2?Expires=60" }] } ] }
    ∧ signedURLsFreshSpec cfgSign exSigner (fun k => k) mTwoClips
      = .ok { Sequences := [ { Clips := [{ «Type» := "source", Path := "/bkt/k1?Expires=60" }] },
                             { Clips := [{ «Type» := "source", Path := "/bkt/k2?Expires=61" }] } ] }
    ∧ ("/bkt/k2?Expires=60" : String) ≠ "/bkt/k2?Expires=61" := by
  exact ⟨by decide, by decide, by decide⟩

theorem C1_witness :
    signedURLs cfgSign exSigner (fun k => k) mTwoClips
      = .ok { Sequences := [ { Clips := [{ «Type» := "source", Path := "/bkt/k1?Expires=60" }] },
                             { Clips := [{ «Type» := "source", Path := "/bkt/k2?Expires=60" }] } ] }
    ∧ cfgSign.SignConfig.Options ((fun k => k) 0)
      = some { Method := "GET", GoogleAccessID := "access", PrivateKey := "secret", Expires := 60 }
    ∧ (60 : Nat) = (fun k => k) 0 + cfgSign.SignConfig.Expiration
    ∧ List.Forall₂ (fun (s s2 : sequence) => List.Forall₂
        (fun (c c2 : clip) => signedPath exSigner c.Path
            { Method := "GET", GoogleAccessID := "access", PrivateKey := "secret", Expires := 60 }
          = .ok c2.Path ∧ c2.«Type» = c.«Type») s.Clips s2.Clips)
        mTwoClips.Sequences
        ([ { Clips := [{ «Type» := "source", Path := "/bkt/k1?Expires=60" }] },
           { Clips := [{ «Type» := "source", Path := "/bkt/k2?Expires=60" }] } ] : List sequence) := by
  refine ⟨by decide, by decide, ?_, ?_⟩
  · exact (C1_shared_expiration cfgSign exSigner (fun k => k) mTwoClips
      { Sequences := [ { Clips := [{ «Type» := "source", Path := "/bkt/k1?Expires=60" }] },
                       { Clips := [{ «Type» := "source", Path := "/bkt/k2?Expires=60" }] } ] }
      { Method := "GET", GoogleAccessID := "access", PrivateKey := "secret", Expires := 60 }
      (by decide) (by decide)).1
  · exact (C1_shared_expiration cfgSign exSigner (fun k => k) mTwoClips
      { Sequences := [ { Clips := [{ «Type» := "source", Path := "/bkt/k1?Expires=60" }] },
                       { Clips := [{ «Type» := "source", Path := "/bkt/k2?Expires=60" }] } ] }
      { Method := "GET", GoogleAccessID := "access", PrivateKey := "secret", Expires := 60 }
      (by decide) (by decide)).2

/-- C6: for a GET request with a non-empty prefix, a failed prefix
expansion produces a 500 error response carrying the underlying message
and no manifest body (partial results are discarded), and a failed signing
likewise produces a 500 error response with no manifest body (no partially
signed manifest is sent). -/
theorem C6_error_discard (cfg : Config) (L : Lister) (M : Matcher) (signer : Signer)
    (times : Nat → Nat) (r : Request)
    (hmethod : r.method = "GET") (hpfx : trimLeftSlashes r.urlPath ≠ "") :
    (∀ (m0 : mapping) (e : String),
      getPrefixMapping (trimLeftSlashes r.urlPath) cfg L M = (m0, some e) →
      mapHandler cfg L M signer times r = .httpError 500 e)
    ∧ (∀ (m0 : mapping) (e : String),
        getPrefixMapping (trimLeftSlashes r.urlPath) cfg L M = (m0, none) →
        signedURLs cfg signer times (appendExtraResources r cfg m0) = .error e →
        mapHandler cfg L M signer times r = .httpError 500 e) := by
  have hm : ¬ (r.method ≠ "GET") := not_not_intro hmethod
  constructor
  · intro m0 e hmap
    unfold mapHandler
    rw [if_neg hm, if_neg hpfx, hmap]
  · intro m0 e hmap hsig
    unfold mapHandler
    rw [if_neg hm, if_neg hpfx, hmap]
    show (match signedURLs cfg signer times (appendExtraResources r cfg m0) with
          | .error e2 => Response.httpError 500 e2
          | .ok m2 => Response.json m2) = Response.httpError 500 e
    rw [hsig]

theorem C6_witness :
    reqPlain.method = "GET"
    ∧ trimLeftSlashes reqPlain.urlPath ≠ ""
    ∧ getPrefixMapping "foo" cfgSign failLister matchAll = ({ Sequences := [] }, some "boom")
    ∧ mapHandler cfgSign failLister matchAll exSigner (fun k => k) reqPlain
        = .httpError 500 "boom"
    ∧ mapHandler cfgSign flakyLister matchAll failSigner (fun k => k) reqPlain
        = .httpError 500 "signing failed" := by
  refine ⟨rfl, by decide, by decide, ?_, ?_⟩
  · exact (C6_error_discard cfgSign failLister matchAll exSigner (fun k => k) reqPlain
      rfl (by decide)).1 { Sequences := [] } "boom" (by decide)
  · exact (C6_error_discard cfgSign flakyLister matchAll failSigner (fun k => k) reqPlain
      rfl (by decide)).2
      { Sequences := [{ Clips := [{ «Type» := "source", Path := "/bkt/asset_720p.mp4" }] }] }
      "signing failed" (by decide) (by decide)

/-- C10 (counterexample): for the logical prefix `foo/` and the
non-normalized alternate prefix `a//b/`, the physical prefix queried is
`a/b` (Go `path.Clean` of the alternate), not `a//b` (the alternate with
its trailing slash removed) as the claim states. -/
theorem C10_counterexample :
    pathSplitFile "foo/" = ""
    ∧ getPrefixes "foo/" cfgDoubleSlash = ["foo/", "a/b"]
    ∧ stripTrailingSlashes "a//b/" = "a//b"
    ∧ ("a/b" : String) ≠ "a//b" := by
  exact ⟨by decide, by decide, by decide, by decide⟩

/-- C10 (amended): for a logical prefix ending in '/', the last path
segment used for fan-out is the empty string, and each alternate physical
prefix equals Go `path.Clean` of the alternate-location prefix (for an
already-normalized alternate such as `subtitles/` that is exactly the
prefix with its trailing slash removed), so the alternate location is
listed at its own root. -/
theorem C10_trailing_slash (op : String) (cfg : Config) (s : String) (hop : op = s ++ "/") :
    pathSplitFile op = ""
    ∧ getPrefixes op cfg
        = op :: cfg.MapExtraPrefixes.map (fun p => if p = "" then "" else pathClean p)
    ∧ getPrefixes "subs/" cfgSubtitles = ["subs/", "subtitles"] := by
  have hsplit : pathSplitFile op = "" := by
    rw [hop]
    exact pathSplitFile_append_slash s
  refine ⟨hsplit, ?_, by decide⟩
  rw [getPrefixes_eq op cfg]
  congr 1
  apply List.map_congr_left
  intro p _
  rw [hsplit]
  exact pathJoin2_empty_right p

theorem C10_witness :
    ("foo/" : String) = "foo" ++ "/"
    ∧ pathSplitFile "foo/" = ""
    ∧ getPrefixes "foo/" cfgSubtitles = ["foo/", "subtitles"] := by
  refine ⟨by decide, (C10_trailing_slash "foo/" cfgSubtitles "foo" (by decide)).1, ?_⟩
  exact (C10_trailing_slash "foo/" cfgSubtitles "foo" (by decide)).2.1

end GcsHelper
